import Mathlib

/-!
Verification of an R-way trie implementation (`trie.go`).

The Go source is shallowly embedded: runes are modelled as `Nat` code points,
Go's `map[rune]*Node` as an association list in insertion order (Go map
iteration order is unspecified; every claim proved about an order-sensitive
result is either about set membership or about the explicitly sorted output),
`uint64` masks as `Nat` (all mask values stay below `2 ^ 64`; the only place
Go's wrap-around semantics matter is the shift in `maskrune`, which is made
explicit there), and the mutating functions as pure state-passing functions.
The `parent` pointers of the Go code exist only to walk back up the path that
`Remove` / `RemoveChild` descended; the embedding renders that upward walk as
the return path of a structural recursion over the same path.
-/

set_option maxHeartbeats 1000000

namespace TrieGo

/-- Model of Go `maskrune(r) = uint64(1) << (uint64(r) - 97)`.
In Go a shift count `≥ 64` yields `0`, and for `r < 97` the subtraction
wraps around to a value `≥ 2 ^ 64 - 97 ≥ 64`, so the result is `0` unless
`97 ≤ r` and `r - 97 < 64`. -/
def maskrune (r : Nat) : Nat :=
  if 97 ≤ r ∧ r - 97 < 64 then 2 ^ (r - 97) else 0

/-- Model of Go `maskruneslice`: fold `m |= maskrune r` over the runes. -/
def maskruneslice (rs : List Nat) : Nat :=
  rs.foldl (fun m r => m ||| maskrune r) 0

/-- Model of the Go `Node` struct: value rune, terminal flag, mask, and the
children map rendered as an association list (parent pointer omitted, see
module comment). -/
inductive Node : Type where
  | mk (val : Nat) (term : Bool) (mask : Nat) (children : List (Nat × Node)) : Node

def Node.val : Node → Nat
  | .mk v _ _ _ => v

def Node.term : Node → Bool
  | .mk _ t _ _ => t

def Node.mask : Node → Nat
  | .mk _ _ m _ => m

def Node.children : Node → List (Nat × Node)
  | .mk _ _ _ c => c

/-- Go map read `node.children[r]`: first entry with key `r`. -/
def chLookup : List (Nat × Node) → Nat → Option Node
  | [], _ => none
  | (r', n) :: cs, r => if r' = r then some n else chLookup cs r

/-- Go map write `node.children[r] = n`: replace the entry in place, or append. -/
def chInsert : List (Nat × Node) → Nat → Node → List (Nat × Node)
  | [], r, n => [(r, n)]
  | (r', n') :: cs, r, n => if r' = r then (r, n) :: cs else (r', n') :: chInsert cs r n

/-- Go map `delete(node.children, r)`. -/
def chDelete (cs : List (Nat × Node)) (r : Nat) : List (Nat × Node) :=
  cs.filter (fun rc => rc.1 ≠ r)

/-- Union of `maskrune k ||| c.mask` over the children entries: the loop body
of Go `recalculateMask` (written as a `foldr` for inductive convenience;
`recalculateMask` is related to it by `recalc`). -/
def orChildren (cs : List (Nat × Node)) : Nat :=
  cs.foldr (fun rc m => (maskrune rc.1 ||| rc.2.mask) ||| m) 0

/-- Model of Go `recalculateMask`: `n.mask = maskrune(n.val)` then
`n.mask |= maskrune k | c.mask` for every child entry. -/
def recalc (n : Node) : Node :=
  .mk n.val n.term
    (n.children.foldl (fun m rc => m ||| (maskrune rc.1 ||| rc.2.mask)) (maskrune n.val))
    n.children

/-- Model of the Go `Trie` struct. `size` is a Go `int`; it is modelled as
`Int` because `Remove` decrements it unconditionally and it can go negative. -/
structure Trie : Type where
  root : Node
  size : Int

/-- Model of Go `CreateTrie`. -/
def CreateTrie : Trie :=
  ⟨.mk 0 false 0 [], 0⟩

/-- Model of Go `findNode` (the `d` cursor into the rune slice is rendered by
consuming the list; the two base cases `len(runes) == 0` and `d == upper`
coincide on the empty remaining list). Go's `node == nil` guard never fires in
the embedding because recursion only enters children found in the map. -/
def findNode : Node → List Nat → Option Node
  | node, [] => some node
  | node, r :: rest =>
    match chLookup node.children r with
    | none => none
    | some n => findNode n rest

/-- Model of Go `addrune`: returns the updated node together with the returned
depth counter. On the empty rune list it registers the terminal sentinel
child under key `0` (`nul`); otherwise it fetches or creates the child for
the head rune with the remaining-suffix bitmask, ORs that bitmask into the
child's mask, and recurses. -/
def addrune : Node → List Nat → Nat → Node × Nat
  | node, [], i =>
    (.mk node.val node.term node.mask (chInsert node.children 0 (.mk 0 true 0 [])), i)
  | node, r :: rest, i =>
    let bitmask := maskruneslice (r :: rest)
    let n :=
      match chLookup node.children r with
      | some n => n
      | none => Node.mk r false bitmask []
    let n' := Node.mk n.val n.term (n.mask ||| bitmask) n.children
    let res := addrune n' rest (i + 1)
    (.mk node.val node.term node.mask (chInsert node.children r res.1), res.2)

/-- Model of Go `Add`: increment `size`, then `addrune` from the root with
depth counter `0`; returns the new trie and the returned depth. -/
def Add (t : Trie) (key : List Nat) : Trie × Nat :=
  let res := addrune t.root key 0
  (⟨res.1, t.size + 1⟩, res.2)

/-- Functional rendering of Go `Remove`'s upward loop together with
`RemoveChild`'s mask recomputation. At hop `i` above the located node the Go
loop inspects the ancestor at path prefix length `len(key) - i` and, at the
first (deepest) ancestor with more than one child, deletes the child keyed by
the next path rune; `RemoveChild` then recalculates the masks from that
ancestor up to the root. Here the same tree is produced on the return path of
a recursion down the path: the `Bool` reports whether a deletion happened at
or below the current node (in which case the current node's mask has been
recalculated, as in the Go upward walk). -/
def removeWalk : Node → List Nat → Node × Bool
  | node, [] => (node, false)
  | node, r :: rest =>
    match chLookup node.children r with
    | none => (node, false)
    | some c =>
      let res := removeWalk c rest
      if res.2 then
        (recalc (.mk node.val node.term node.mask (chInsert node.children r res.1)), true)
      else if 1 < node.children.length then
        (recalc (.mk node.val node.term node.mask (chDelete node.children r)), true)
      else (node, false)

/-- Model of Go `Remove`. When `findNode` fails the Go code calls
`node.Parent()` on a `nil` pointer and panics; the model returns `none` for
that crash. Otherwise `size` is decremented and the upward walk runs. -/
def Remove (t : Trie) (key : List Nat) : Option Trie :=
  match findNode t.root key with
  | none => none
  | some _ => some ⟨(removeWalk t.root key).1, t.size - 1⟩

mutual

/-- Model of Go `collect`: emit `pre` for each terminal child, recurse with
`pre ++ [r]` for the others, in children order. -/
def collect : Node → List Nat → List (List Nat)
  | .mk _ _ _ cs, pre => collectList cs pre

def collectList : List (Nat × Node) → List Nat → List (List Nat)
  | [], _ => []
  | (r, n) :: cs, pre =>
    (if n.term then [pre] else collect n (pre ++ [r])) ++ collectList cs pre

end

/-- Model of Go `PrefixSearch`. -/
def PrefixSearch (t : Trie) (pre : List Nat) : List (List Nat) :=
  match findNode t.root pre with
  | none => []
  | some node => collect node pre

/-- Model of Go `Keys`. -/
def Keys (t : Trie) : List (List Nat) :=
  PrefixSearch t []

mutual

/-- Model of Go `fuzzycollect`. The Go parameter `partial` (the remaining
pattern) is named `patt` here. On an empty remaining pattern it falls back to
`collect`; otherwise, for every child `(v, n)`: the child is skipped when
`(n.mask ^^^ m) &&& m ≠ 0` (some required letter is unreachable below it),
the pattern head is consumed when `v` matches it, and the search recurses. -/
def fuzzycollect : Node → List Nat → List Nat → List (List Nat)
  | node, acc, [] => collect node acc
  | .mk _ _ _ cs, acc, p :: ps => fuzzyList cs acc p ps (maskruneslice (p :: ps))

def fuzzyList : List (Nat × Node) → List Nat → Nat → List Nat → Nat → List (List Nat)
  | [], _, _, _, _ => []
  | (v, n) :: cs, acc, p, ps, m =>
    (if (n.mask ^^^ m) &&& m ≠ 0 then []
     else fuzzycollect n (acc ++ [v]) (if v = p then ps else p :: ps)) ++
      fuzzyList cs acc p ps m

end

/-- Go `sort.Strings` comparison on rune lists: lexicographic byte order (for
the lowercase ASCII alphabet the UTF-8 byte order coincides with code point
order). -/
def lexLe : List Nat → List Nat → Bool
  | [], _ => true
  | _ :: _, [] => false
  | a :: as, b :: bs => if a < b then true else if b < a then false else lexLe as bs

/-- Model of Go `FuzzySearch`: collect, then sort (Go `sort.Strings` produces
the sorted permutation of the collected slice; since `lexLe` is a total
antisymmetric order that permutation is unique, so `mergeSort` models it
exactly). -/
def FuzzySearch (t : Trie) (pattern : List Nat) : List (List Nat) :=
  (fuzzycollect t.root [] pattern).mergeSort lexLe

/-! ### Specification-side definitions

`KeyIn` captures which keys `collect` can see: a key is stored below a node
when walking its runes through non-terminal children ends at a node owning a
terminal child. `wfNode` is the structural well-formedness every trie built
from lowercase keys enjoys; `maskInvNode` is the mask invariant of the spec. -/

/-- Membership of a key below a node, matching what `collect` emits: the empty
key is present when some child is terminal; `r :: k` is present when the
child entry for `r` is a non-terminal node below which `k` is present. -/
inductive KeyIn : Node → List Nat → Prop where
  | term {v t m cs} {rc : Nat × Node} (hm : rc ∈ cs) (ht : rc.2.term = true) :
      KeyIn (.mk v t m cs) []
  | step {v t m cs k} {rc : Nat × Node} (hm : rc ∈ cs) (ht : rc.2.term = false)
      (hk : KeyIn rc.2 k) : KeyIn (.mk v t m cs) (rc.1 :: k)

mutual

/-- Executable version of `KeyIn`. -/
def keyIn : Node → List Nat → Bool
  | .mk _ _ _ cs, k => keyInList cs k

def keyInList : List (Nat × Node) → List Nat → Bool
  | [], _ => false
  | (_, c) :: cs, [] => c.term || keyInList cs []
  | (r, c) :: cs, q :: k => (decide (r = q) && !c.term && keyIn c k) || keyInList cs (q :: k)

end

mutual

/-- Structural well-formedness: children keys are distinct; the child keyed
`0` is the terminal sentinel (value `0`, terminal, no children); a child
keyed `r ≠ 0` is a lowercase-letter node with value `r`, not terminal, and
recursively well-formed. Every trie reachable by `Add` of lowercase keys and
`Remove` satisfies this. -/
def wfNode : Node → Bool
  | .mk _ _ _ cs => decide ((cs.map Prod.fst).Nodup) && wfList cs

def wfList : List (Nat × Node) → Bool
  | [] => true
  | (r, c) :: cs =>
    (if r = 0 then decide (c.val = 0) && c.term && c.children.isEmpty
     else decide (97 ≤ r) && decide (r ≤ 122) && decide (c.val = r) && !c.term && wfNode c)
      && wfList cs

end

mutual

/-- The mask invariant of the spec, checked at this node and every node below
it: `mask = maskrune val ||| orChildren children`. -/
def maskInvNode : Node → Bool
  | .mk v _ m cs => decide (m = maskrune v ||| orChildren cs) && maskInvList cs

def maskInvList : List (Nat × Node) → Bool
  | [] => true
  | (_, c) :: cs => maskInvNode c && maskInvList cs

end

/-- The mask invariant at every node strictly below this one (the root is
exempted: `Add` never touches the root's mask). -/
def maskInvBelow (n : Node) : Bool :=
  maskInvList n.children

/-- Keys drawn from the lowercase alphabet `a`–`z` the design is restricted to. -/
def Lowercase (k : List Nat) : Bool :=
  k.all (fun r => decide (97 ≤ r) && decide (r ≤ 122))

/-- Insertion of a list of keys into a fresh trie, in order. -/
def buildTrie (ks : List (List Nat)) : Trie :=
  ks.foldl (fun t k => (Add t k).1) CreateTrie

/-- The trie states reachable from `CreateTrie` by `Add` of lowercase keys
and by `Remove` of present keys (when `Remove` completes without the
nil-parent crash). -/
inductive Reachable : Trie → Prop where
  | init : Reachable CreateTrie
  | add {t k} (ht : Reachable t) (hk : Lowercase k = true) : Reachable (Add t k).1
  | remove {t t' k} (ht : Reachable t) (hk : keyIn t.root k = true)
      (hr : Remove t k = some t') : Reachable t'

/-- Number of children of the node reached by following `p` from `n`
(`0` when the path does not exist). Used to state the single-child-ancestors
hypothesis of the deletion claims decidably. -/
def pathChildCount (n : Node) (p : List Nat) : Nat :=
  match findNode n p with
  | none => 0
  | some m => m.children.length

/-! ### Basic structural lemmas -/

@[simp] theorem Node.val_mk (v : Nat) (t : Bool) (m : Nat) (cs : List (Nat × Node)) :
    (Node.mk v t m cs).val = v := rfl

@[simp] theorem Node.term_mk (v : Nat) (t : Bool) (m : Nat) (cs : List (Nat × Node)) :
    (Node.mk v t m cs).term = t := rfl

@[simp] theorem Node.mask_mk (v : Nat) (t : Bool) (m : Nat) (cs : List (Nat × Node)) :
    (Node.mk v t m cs).mask = m := rfl

@[simp] theorem Node.children_mk (v : Nat) (t : Bool) (m : Nat) (cs : List (Nat × Node)) :
    (Node.mk v t m cs).children = cs := rfl

theorem Node.eta (n : Node) : Node.mk n.val n.term n.mask n.children = n := by
  cases n
  rfl

/-- Induction over the nested inductive `Node`: to prove `P` everywhere it
suffices to prove it at a node given it for all entries of the children list. -/
theorem Node.myrec {P : Node → Prop}
    (h : ∀ v t m cs, (∀ rc ∈ cs, P rc.2) → P (Node.mk v t m cs)) : ∀ n, P n := by
  have key : ∀ (k : Nat) (n : Node), sizeOf n ≤ k → P n := by
    intro k
    induction k with
    | zero => intro n hn; cases n; simp at hn
    | succ k ih =>
      intro n hn
      cases n with
      | mk v t m cs =>
        apply h
        intro rc hrc
        apply ih
        have h1 := List.sizeOf_lt_of_mem hrc
        obtain ⟨a, b⟩ := rc
        simp at h1 hn ⊢
        omega
  intro n
  exact key (sizeOf n) n (Nat.le_refl _)

/-! ### Bitmask toolkit -/

/-- Mask inclusion: every bit of `a` is a bit of `b`. -/
def MSub (a b : Nat) : Prop :=
  ∀ i, a.testBit i = true → b.testBit i = true

theorem MSub.refl (a : Nat) : MSub a a := fun _ h => h

theorem MSub.trans {a b c : Nat} (h1 : MSub a b) (h2 : MSub b c) : MSub a c :=
  fun i h => h2 i (h1 i h)

theorem MSub.left (a b : Nat) : MSub a (a ||| b) := by
  intro i h; simp [h]

theorem MSub.right (a b : Nat) : MSub b (a ||| b) := by
  intro i h; simp [h]

theorem MSub.union {a b c : Nat} (h1 : MSub a c) (h2 : MSub b c) : MSub (a ||| b) c := by
  intro i h
  simp only [Nat.testBit_or, Bool.or_eq_true] at h
  rcases h with h | h
  · exact h1 i h
  · exact h2 i h

theorem MSub.mono_right {a b c : Nat} (h : MSub a b) : MSub a (b ||| c) :=
  h.trans (MSub.left b c)

theorem or_eq_right_of_MSub {a b : Nat} (h : MSub a b) : a ||| b = b := by
  apply Nat.eq_of_testBit_eq
  intro i
  simp only [Nat.testBit_or]
  cases hb : b.testBit i with
  | true => simp
  | false =>
    cases ha : a.testBit i with
    | true => exact absurd (h i ha) (by simp [hb])
    | false => simp

theorem MSub_of_or_eq_right {a b : Nat} (h : a ||| b = b) : MSub a b := by
  intro i hi
  have := congrArg (fun x => Nat.testBit x i) h
  simp only [Nat.testBit_or] at this
  rw [← this]
  simp [hi]

theorem or_eq_left_of_MSub {a b : Nat} (h : MSub b a) : a ||| b = a := by
  rw [Nat.or_comm]
  exact or_eq_right_of_MSub h

/-! ### maskrune and fold lemmas -/

theorem foldl_or_init (f : Nat → Nat) (l : List Nat) (a : Nat) :
    l.foldl (fun m r => m ||| f r) a = a ||| l.foldl (fun m r => m ||| f r) 0 := by
  induction l generalizing a with
  | nil => simp
  | cons x xs ih =>
    simp only [List.foldl_cons, Nat.zero_or]
    rw [ih (a ||| f x), ih (f x), Nat.or_assoc]

theorem maskruneslice_nil : maskruneslice [] = 0 := rfl

theorem maskruneslice_cons (r : Nat) (rs : List Nat) :
    maskruneslice (r :: rs) = maskrune r ||| maskruneslice rs := by
  unfold maskruneslice
  simp only [List.foldl_cons, Nat.zero_or]
  exact foldl_or_init maskrune rs (maskrune r)

theorem maskrune_lowercase {r : Nat} (h1 : 97 ≤ r) (h2 : r ≤ 122) :
    maskrune r = 2 ^ (r - 97) := by
  unfold maskrune
  rw [if_pos ⟨h1, by omega⟩]

theorem maskrune_zero : maskrune 0 = 0 := rfl

/-! ### recalc and orChildren lemmas -/

theorem foldl_or_pair_init (l : List (Nat × Node)) (a : Nat) :
    l.foldl (fun m rc => m ||| (maskrune rc.1 ||| rc.2.mask)) a =
      a ||| l.foldr (fun rc m => (maskrune rc.1 ||| rc.2.mask) ||| m) 0 := by
  induction l generalizing a with
  | nil => simp
  | cons x xs ih =>
    simp only [List.foldl_cons, List.foldr_cons]
    rw [ih, Nat.or_assoc]

theorem recalc_mask (n : Node) :
    (recalc n).mask = maskrune n.val ||| orChildren n.children := by
  unfold recalc orChildren
  simp only [Node.mask_mk]
  exact foldl_or_pair_init n.children (maskrune n.val)

@[simp] theorem recalc_val (n : Node) : (recalc n).val = n.val := rfl

@[simp] theorem recalc_term (n : Node) : (recalc n).term = n.term := rfl

@[simp] theorem recalc_children (n : Node) : (recalc n).children = n.children := rfl

theorem orChildren_nil : orChildren [] = 0 := rfl

theorem orChildren_cons (rc : Nat × Node) (cs : List (Nat × Node)) :
    orChildren (rc :: cs) = (maskrune rc.1 ||| rc.2.mask) ||| orChildren cs := rfl

theorem MSub_orChildren_of_mem {cs : List (Nat × Node)} {rc : Nat × Node} (h : rc ∈ cs) :
    MSub (maskrune rc.1 ||| rc.2.mask) (orChildren cs) := by
  induction cs with
  | nil => cases h
  | cons x xs ih =>
    rcases List.mem_cons.mp h with h | h
    · subst h
      rw [orChildren_cons]
      exact MSub.left _ _
    · rw [orChildren_cons]
      exact (ih h).trans (MSub.right _ _)

theorem MSub.antisymm {a b : Nat} (h1 : MSub a b) (h2 : MSub b a) : a = b := by
  apply Nat.eq_of_testBit_eq
  intro i
  cases ha : a.testBit i with
  | true => exact (h1 i ha).symm
  | false =>
    cases hb : b.testBit i with
    | true => exact absurd (h2 i hb) (by simp [ha])
    | false => rfl

/-! ### Children association-list lemmas -/

theorem mem_of_chLookup {cs : List (Nat × Node)} {r : Nat} {n : Node}
    (h : chLookup cs r = some n) : (r, n) ∈ cs := by
  induction cs with
  | nil => simp [chLookup] at h
  | cons x xs ih =>
    obtain ⟨r', n'⟩ := x
    by_cases hr : r' = r
    · subst hr
      simp [chLookup] at h
      subst h
      exact List.mem_cons_self _ _
    · simp [chLookup, hr] at h
      exact List.mem_cons_of_mem _ (ih h)

theorem chLookup_eq_none_iff {cs : List (Nat × Node)} {r : Nat} :
    chLookup cs r = none ↔ r ∉ cs.map Prod.fst := by
  induction cs with
  | nil => simp [chLookup]
  | cons x xs ih =>
    obtain ⟨r', n'⟩ := x
    by_cases hr : r' = r
    · subst hr
      simp [chLookup]
    · simp [chLookup, hr, ih]
      omega

theorem chLookup_of_mem_nodup {cs : List (Nat × Node)} {r : Nat} {n : Node}
    (hd : (cs.map Prod.fst).Nodup) (h : (r, n) ∈ cs) : chLookup cs r = some n := by
  induction cs with
  | nil => cases h
  | cons x xs ih =>
    obtain ⟨r', n'⟩ := x
    simp only [List.map_cons, List.nodup_cons] at hd
    rcases List.mem_cons.mp h with h | h
    · rw [Prod.mk.injEq] at h
      obtain ⟨h1, h2⟩ := h
      subst h1; subst h2
      simp [chLookup]
    · have hne : r' ≠ r := by
        intro he
        subst he
        exact hd.1 (List.mem_map.mpr ⟨(r', n), h, rfl⟩)
      simp [chLookup, hne]
      exact ih hd.2 h

theorem chInsert_map_fst_of_lookup_some {cs : List (Nat × Node)} {r : Nat} {c n : Node}
    (h : chLookup cs r = some c) : (chInsert cs r n).map Prod.fst = cs.map Prod.fst := by
  induction cs with
  | nil => simp [chLookup] at h
  | cons x xs ih =>
    obtain ⟨r', n'⟩ := x
    by_cases hr : r' = r
    · subst hr
      simp [chInsert]
    · simp [chLookup, hr] at h
      simp [chInsert, hr, ih h]

theorem chInsert_map_fst_of_lookup_none {cs : List (Nat × Node)} {r : Nat} {n : Node}
    (h : chLookup cs r = none) : (chInsert cs r n).map Prod.fst = cs.map Prod.fst ++ [r] := by
  induction cs with
  | nil => simp [chInsert]
  | cons x xs ih =>
    obtain ⟨r', n'⟩ := x
    by_cases hr : r' = r
    · subst hr
      simp [chLookup] at h
    · simp [chLookup, hr] at h
      simp [chInsert, hr, ih h]

theorem chInsert_nodup {cs : List (Nat × Node)} {r : Nat} {n : Node}
    (hd : (cs.map Prod.fst).Nodup) : ((chInsert cs r n).map Prod.fst).Nodup := by
  cases h : chLookup cs r with
  | none =>
    rw [chInsert_map_fst_of_lookup_none h]
    have hr : r ∉ cs.map Prod.fst := chLookup_eq_none_iff.mp h
    simp [List.nodup_append, hd, hr]
  | some c => rw [chInsert_map_fst_of_lookup_some h]; exact hd

theorem chLookup_chInsert_same (cs : List (Nat × Node)) (r : Nat) (n : Node) :
    chLookup (chInsert cs r n) r = some n := by
  induction cs with
  | nil => simp [chInsert, chLookup]
  | cons x xs ih =>
    obtain ⟨r', n'⟩ := x
    by_cases hr : r' = r
    · subst hr
      simp [chInsert, chLookup]
    · simp [chInsert, chLookup, hr, ih]

theorem chLookup_chInsert_other {cs : List (Nat × Node)} {r q : Nat} (n : Node) (hq : q ≠ r) :
    chLookup (chInsert cs r n) q = chLookup cs q := by
  have hrq : ¬r = q := fun h => hq h.symm
  induction cs with
  | nil => simp [chInsert, chLookup, hrq]
  | cons x xs ih =>
    obtain ⟨r', n'⟩ := x
    by_cases hr : r' = r
    · subst hr
      simp [chInsert, chLookup, hrq]
    · by_cases hq' : r' = q
      · subst hq'
        simp [chInsert, chLookup, hr]
      · simp [chInsert, chLookup, hr, hq', ih]

theorem chInsert_self {cs : List (Nat × Node)} {r : Nat} {n : Node}
    (h : chLookup cs r = some n) : chInsert cs r n = cs := by
  induction cs with
  | nil => simp [chLookup] at h
  | cons x xs ih =>
    obtain ⟨r', n'⟩ := x
    by_cases hr : r' = r
    · subst hr
      simp [chLookup] at h
      simp [chInsert, h]
    · simp [chLookup, hr] at h
      simp [chInsert, hr, ih h]

theorem mem_chInsert_of_mem_ne {cs : List (Nat × Node)} {rc : Nat × Node} {r : Nat} {n : Node}
    (h : rc ∈ cs) (hne : rc.1 ≠ r) : rc ∈ chInsert cs r n := by
  induction cs with
  | nil => cases h
  | cons x xs ih =>
    obtain ⟨r', n'⟩ := x
    rcases List.mem_cons.mp h with h | h
    · subst h
      have : r' ≠ r := hne
      simp [chInsert, this]
    · by_cases hr : r' = r
      · subst hr
        simp [chInsert]
        right
        exact h
      · simp [chInsert, hr]
        right
        exact ih h

theorem mem_chInsert_elim {cs : List (Nat × Node)} {rc : Nat × Node} {r : Nat} {n : Node}
    (h : rc ∈ chInsert cs r n) : rc = (r, n) ∨ (rc ∈ cs ∧ rc.1 ≠ r) ∨ rc ∈ cs := by
  induction cs with
  | nil =>
    simp [chInsert] at h
    left
    exact h
  | cons x xs ih =>
    obtain ⟨r', n'⟩ := x
    by_cases hr : r' = r
    · subst hr
      simp only [chInsert, if_pos rfl] at h
      rcases List.mem_cons.mp h with h | h
      · left; exact h
      · right; right; exact List.mem_cons_of_mem _ h
    · simp only [chInsert, if_neg hr] at h
      rcases List.mem_cons.mp h with h | h
      · right; right; exact h ▸ List.mem_cons_self _ _
      · rcases ih h with h | h | h
        · left; exact h
        · right; left; exact ⟨List.mem_cons_of_mem _ h.1, h.2⟩
        · right; right; exact List.mem_cons_of_mem _ h

theorem mem_chDelete_of_mem_ne {cs : List (Nat × Node)} {rc : Nat × Node} {r : Nat}
    (h : rc ∈ cs) (hne : rc.1 ≠ r) : rc ∈ chDelete cs r := by
  unfold chDelete
  exact List.mem_filter.mpr ⟨h, by simpa using hne⟩

theorem mem_of_mem_chDelete {cs : List (Nat × Node)} {rc : Nat × Node} {r : Nat}
    (h : rc ∈ chDelete cs r) : rc ∈ cs ∧ rc.1 ≠ r := by
  unfold chDelete at h
  have := List.mem_filter.mp h
  exact ⟨this.1, by simpa using this.2⟩

theorem orChildren_chInsert_none {cs : List (Nat × Node)} {r : Nat} {n : Node}
    (h : chLookup cs r = none) :
    orChildren (chInsert cs r n) = orChildren cs ||| (maskrune r ||| n.mask) := by
  induction cs with
  | nil => simp [chInsert, orChildren]
  | cons x xs ih =>
    obtain ⟨r', n'⟩ := x
    by_cases hr : r' = r
    · subst hr
      simp [chLookup] at h
    · simp [chLookup, hr] at h
      simp only [chInsert, if_neg hr, orChildren_cons, ih h, Nat.or_assoc]

theorem or_replace_absorb {A B C X : Nat} (h : MSub B X) :
    (A ||| X) ||| C = ((A ||| B) ||| C) ||| (A ||| X) := by
  have hBX : B ||| X = X := or_eq_right_of_MSub h
  apply Nat.eq_of_testBit_eq
  intro i
  have hbx := congrArg (fun x => Nat.testBit x i) hBX
  simp only [Nat.testBit_or] at hbx ⊢
  cases hA : A.testBit i <;> cases hX : X.testBit i <;> cases hC : C.testBit i <;> simp_all

theorem orChildren_chInsert_some {cs : List (Nat × Node)} {r : Nat} {c n : Node}
    (h : chLookup cs r = some c) (hm : MSub c.mask n.mask) :
    orChildren (chInsert cs r n) = orChildren cs ||| (maskrune r ||| n.mask) := by
  induction cs with
  | nil => simp [chLookup] at h
  | cons x xs ih =>
    obtain ⟨r', n'⟩ := x
    by_cases hr : r' = r
    · subst hr
      simp [chLookup] at h
      rw [← h] at hm
      have hins : chInsert ((r', n') :: xs) r' n = (r', n) :: xs := by
        simp [chInsert]
      rw [hins, orChildren_cons, orChildren_cons]
      exact or_replace_absorb hm
    · simp [chLookup, hr] at h
      simp only [chInsert, if_neg hr, orChildren_cons, ih h, Nat.or_assoc]

/-! ### Characterizations of the Bool predicates -/

/-- The per-entry content of `wfList`. -/
def WfEntry (rc : Nat × Node) : Prop :=
  if rc.1 = 0 then rc.2.val = 0 ∧ rc.2.term = true ∧ rc.2.children = []
  else 97 ≤ rc.1 ∧ rc.1 ≤ 122 ∧ rc.2.val = rc.1 ∧ rc.2.term = false ∧ wfNode rc.2 = true

theorem wfList_iff {cs : List (Nat × Node)} :
    wfList cs = true ↔ ∀ rc ∈ cs, WfEntry rc := by
  induction cs with
  | nil => simp [wfList]
  | cons x xs ih =>
    obtain ⟨r, c⟩ := x
    by_cases hr : r = 0
    · subst hr
      simp [wfList, ih, WfEntry, List.isEmpty_iff, and_assoc]
    · simp [wfList, hr, ih, WfEntry, and_assoc]

theorem wfNode_iff (n : Node) :
    wfNode n = true ↔
      (n.children.map Prod.fst).Nodup ∧ ∀ rc ∈ n.children, WfEntry rc := by
  cases n
  simp [wfNode, wfList_iff]

theorem maskInvList_iff {cs : List (Nat × Node)} :
    maskInvList cs = true ↔ ∀ rc ∈ cs, maskInvNode rc.2 = true := by
  induction cs with
  | nil => simp [maskInvList]
  | cons x xs ih =>
    obtain ⟨r, c⟩ := x
    simp [maskInvList, ih]

theorem maskInvNode_iff (n : Node) :
    maskInvNode n = true ↔
      n.mask = maskrune n.val ||| orChildren n.children ∧
        maskInvList n.children = true := by
  cases n
  simp [maskInvNode]

theorem keyIn_mk (v : Nat) (t : Bool) (m : Nat) (cs : List (Nat × Node)) (k : List Nat) :
    keyIn (.mk v t m cs) k = keyInList cs k := by
  rfl

theorem keyInList_nil_iff {cs : List (Nat × Node)} :
    keyInList cs [] = true ↔ ∃ rc ∈ cs, rc.2.term = true := by
  induction cs with
  | nil => simp [keyInList]
  | cons x xs ih =>
    obtain ⟨r, c⟩ := x
    simp [keyInList, ih]

theorem keyInList_cons_iff {cs : List (Nat × Node)} {q : Nat} {k : List Nat} :
    keyInList cs (q :: k) = true ↔
      ∃ rc ∈ cs, rc.1 = q ∧ rc.2.term = false ∧ keyIn rc.2 k = true := by
  induction cs with
  | nil => simp [keyInList]
  | cons x xs ih =>
    obtain ⟨r, c⟩ := x
    by_cases hr : r = q
    · subst hr
      simp [keyInList, ih]
    · simp [keyInList, hr, ih]

theorem KeyIn_nil_iff {v : Nat} {t : Bool} {m : Nat} {cs : List (Nat × Node)} :
    KeyIn (.mk v t m cs) [] ↔ ∃ rc ∈ cs, rc.2.term = true := by
  constructor
  · intro h
    cases h with
    | term hm ht => exact ⟨_, hm, ht⟩
  · rintro ⟨rc, hm, ht⟩
    exact KeyIn.term hm ht

theorem KeyIn_cons_iff {v : Nat} {t : Bool} {m : Nat} {cs : List (Nat × Node)}
    {q : Nat} {k : List Nat} :
    KeyIn (.mk v t m cs) (q :: k) ↔
      ∃ rc ∈ cs, rc.1 = q ∧ rc.2.term = false ∧ KeyIn rc.2 k := by
  constructor
  · intro h
    cases h with
    | step hm ht hk => exact ⟨_, hm, rfl, ht, hk⟩
  · rintro ⟨rc, hm, hq, ht, hk⟩
    have := @KeyIn.step v t m cs k rc hm ht hk
    rwa [hq] at this

theorem keyIn_iff_KeyIn : ∀ (k : List Nat) (n : Node), keyIn n k = true ↔ KeyIn n k := by
  intro k
  induction k with
  | nil =>
    intro n
    cases n
    rw [keyIn_mk, keyInList_nil_iff, KeyIn_nil_iff]
  | cons q k ih =>
    intro n
    cases n
    rw [keyIn_mk, keyInList_cons_iff, KeyIn_cons_iff]
    constructor
    · rintro ⟨rc, hm, hq, ht, hk⟩
      exact ⟨rc, hm, hq, ht, (ih rc.2).mp hk⟩
    · rintro ⟨rc, hm, hq, ht, hk⟩
      exact ⟨rc, hm, hq, ht, (ih rc.2).mpr hk⟩

/-- `KeyIn` depends only on the children list of the node. -/
theorem KeyIn_congr {v v' : Nat} {t t' : Bool} {m m' : Nat} {cs : List (Nat × Node)}
    {k : List Nat} : KeyIn (.mk v t m cs) k ↔ KeyIn (.mk v' t' m' cs) k := by
  cases k with
  | nil => rw [KeyIn_nil_iff, KeyIn_nil_iff]
  | cons q k => rw [KeyIn_cons_iff, KeyIn_cons_iff]

theorem KeyIn_nil_iff' {n : Node} :
    KeyIn n [] ↔ ∃ rc ∈ n.children, rc.2.term = true := by
  cases n
  exact KeyIn_nil_iff

theorem KeyIn_cons_iff' {n : Node} {q : Nat} {k : List Nat} :
    KeyIn n (q :: k) ↔
      ∃ rc ∈ n.children, rc.1 = q ∧ rc.2.term = false ∧ KeyIn rc.2 k := by
  cases n
  exact KeyIn_cons_iff

theorem not_KeyIn_of_no_children {n : Node} (h : n.children = []) (x : List Nat) :
    ¬ KeyIn n x := by
  intro hk
  cases x with
  | nil =>
    obtain ⟨rc, hm, _⟩ := KeyIn_nil_iff'.mp hk
    rw [h] at hm
    cases hm
  | cons q k =>
    obtain ⟨rc, hm, _⟩ := KeyIn_cons_iff'.mp hk
    rw [h] at hm
    cases hm

/-- `KeyIn` is insensitive to the node's own value, terminal flag and mask. -/
theorem KeyIn_congr' {n n' : Node} (h : n.children = n'.children) (k : List Nat) :
    KeyIn n k ↔ KeyIn n' k := by
  cases k with
  | nil => rw [KeyIn_nil_iff', KeyIn_nil_iff', h]
  | cons q k => rw [KeyIn_cons_iff', KeyIn_cons_iff', h]

theorem mem_chInsert_iff_nodup {cs : List (Nat × Node)} {rc : Nat × Node} {r : Nat} {n : Node}
    (hd : (cs.map Prod.fst).Nodup) :
    rc ∈ chInsert cs r n ↔ rc = (r, n) ∨ (rc ∈ cs ∧ rc.1 ≠ r) := by
  constructor
  · intro h
    induction cs with
    | nil =>
      simp [chInsert] at h
      left
      exact h
    | cons x xs ih =>
      obtain ⟨r', n'⟩ := x
      simp only [List.map_cons, List.nodup_cons] at hd
      by_cases hr : r' = r
      · subst hr
        simp only [chInsert, if_pos rfl] at h
        rcases List.mem_cons.mp h with h | h
        · left; exact h
        · right
          constructor
          · exact List.mem_cons_of_mem _ h
          · intro he
            exact hd.1 (List.mem_map.mpr ⟨rc, h, he⟩)
      · simp only [chInsert, if_neg hr] at h
        rcases List.mem_cons.mp h with h | h
        · subst h
          right
          exact ⟨List.mem_cons_self _ _, hr⟩
        · rcases ih hd.2 h with h | h
          · left; exact h
          · right; exact ⟨List.mem_cons_of_mem _ h.1, h.2⟩
  · rintro (h | ⟨h, hne⟩)
    · subst h
      exact mem_of_chLookup (chLookup_chInsert_same cs r n)
    · exact mem_chInsert_of_mem_ne h hne

/-! ### addrune lemmas -/

theorem addrune_fields (rs : List Nat) (n : Node) (i : Nat) :
    (addrune n rs i).1.val = n.val ∧ (addrune n rs i).1.term = n.term ∧
      (addrune n rs i).1.mask = n.mask := by
  cases rs with
  | nil => simp [addrune]
  | cons r rest => simp [addrune]

theorem addrune_snd (rs : List Nat) : ∀ (n : Node) (i : Nat),
    (addrune n rs i).2 = i + rs.length := by
  induction rs with
  | nil => intro n i; simp [addrune]
  | cons r rest ih =>
    intro n i
    simp only [addrune, ih, List.length_cons]
    omega

theorem Lowercase_cons {r : Nat} {rs : List Nat} :
    Lowercase (r :: rs) = true ↔ (97 ≤ r ∧ r ≤ 122) ∧ Lowercase rs = true := by
  simp [Lowercase]

theorem wfNode_eq_of_children {n n' : Node} (h : n.children = n'.children) :
    wfNode n = wfNode n' := by
  cases n
  cases n'
  simp only [Node.children_mk] at h
  subst h
  rfl

theorem wfEntry_of_mem {n : Node} {rc : Nat × Node} (hwf : wfNode n = true)
    (hm : rc ∈ n.children) : WfEntry rc :=
  ((wfNode_iff n).mp hwf).2 rc hm

theorem nodup_of_wf {n : Node} (hwf : wfNode n = true) :
    (n.children.map Prod.fst).Nodup :=
  ((wfNode_iff n).mp hwf).1

theorem entry_unique {cs : List (Nat × Node)} {rc rc' : Nat × Node}
    (hd : (cs.map Prod.fst).Nodup) (h1 : rc ∈ cs) (h2 : rc' ∈ cs) (he : rc.1 = rc'.1) :
    rc = rc' := by
  have e1 : chLookup cs rc.1 = some rc.2 := chLookup_of_mem_nodup hd h1
  have e2 : chLookup cs rc'.1 = some rc'.2 := chLookup_of_mem_nodup hd h2
  rw [he, e2] at e1
  have hv : rc'.2 = rc.2 := by injection e1
  obtain ⟨a, b⟩ := rc
  obtain ⟨a', b'⟩ := rc'
  simp_all

theorem wfNode_addrune : ∀ (rs : List Nat) (n : Node) (i : Nat),
    Lowercase rs = true → wfNode n = true → wfNode (addrune n rs i).1 = true := by
  intro rs
  induction rs with
  | nil =>
    intro n i _ hwf
    simp only [addrune]
    rw [wfNode_iff]
    simp only [Node.children_mk]
    refine ⟨chInsert_nodup (nodup_of_wf hwf), ?_⟩
    intro rc hm
    rcases mem_chInsert_elim hm with h | h | h
    · subst h
      simp [WfEntry]
    · exact wfEntry_of_mem hwf h.1
    · exact wfEntry_of_mem hwf h
  | cons r rest ih =>
    intro n i hlow hwf
    obtain ⟨⟨hr1, hr2⟩, hrest⟩ := Lowercase_cons.mp hlow
    have hr0 : ¬(r = 0) := by omega
    simp only [addrune]
    cases hc : chLookup n.children r with
    | some c =>
      have hmem := mem_of_chLookup hc
      have hent := wfEntry_of_mem hwf hmem
      rw [WfEntry, if_neg hr0] at hent
      obtain ⟨_, _, hval, hterm, hwfc⟩ := hent
      simp only at hval hterm hwfc
      have hwfc' :
          wfNode (Node.mk c.val c.term (c.mask ||| maskruneslice (r :: rest)) c.children)
            = true := by
        rw [@wfNode_eq_of_children _ c (by simp)]
        exact hwfc
      have hwfrc' := ih _ (i + 1) hrest hwfc'
      have hfields := addrune_fields rest
        (Node.mk c.val c.term (c.mask ||| maskruneslice (r :: rest)) c.children) (i + 1)
      rw [wfNode_iff]
      simp only [Node.children_mk, hc]
      refine ⟨chInsert_nodup (nodup_of_wf hwf), ?_⟩
      intro rc hm
      rcases mem_chInsert_elim hm with h | h | h
      · subst h
        rw [WfEntry, if_neg hr0]
        refine ⟨hr1, hr2, ?_, ?_, hwfrc'⟩
        · have hv := hfields.1
          simp only [Node.val_mk, Node.term_mk, Node.mask_mk]
            at hv ⊢
          rw [hv, hval]
        · have hv := hfields.2.1
          simp only [Node.val_mk, Node.term_mk, Node.mask_mk]
            at hv ⊢
          rw [hv, hterm]
      · exact wfEntry_of_mem hwf h.1
      · exact wfEntry_of_mem hwf h
    | none =>
      have hwfc' :
          wfNode (Node.mk r false (maskruneslice (r :: rest) ||| maskruneslice (r :: rest))
            ([] : List (Nat × Node))) = true := by
        simp [wfNode, wfList]
      have hwfrc' := ih _ (i + 1) hrest hwfc'
      have hfields := addrune_fields rest
        (Node.mk r false (maskruneslice (r :: rest) ||| maskruneslice (r :: rest))
          ([] : List (Nat × Node))) (i + 1)
      rw [wfNode_iff]
      simp only [Node.children_mk, hc]
      refine ⟨chInsert_nodup (nodup_of_wf hwf), ?_⟩
      intro rc hm
      rcases mem_chInsert_elim hm with h | h | h
      · subst h
        rw [WfEntry, if_neg hr0]
        refine ⟨hr1, hr2, ?_, ?_, hwfrc'⟩
        · have hv := hfields.1
          simp only [Node.val_mk, Node.term_mk, Node.mask_mk]
            at hv ⊢
          rw [hv]
        · have hv := hfields.2.1
          simp only [Node.val_mk, Node.term_mk, Node.mask_mk]
            at hv ⊢
          rw [hv]
      · exact wfEntry_of_mem hwf h.1
      · exact wfEntry_of_mem hwf h

theorem KeyIn_addrune : ∀ (rs : List Nat) (n : Node) (i : Nat) (x : List Nat),
    Lowercase rs = true → wfNode n = true →
    (KeyIn (addrune n rs i).1 x ↔ (KeyIn n x ∨ x = rs)) := by
  intro rs
  induction rs with
  | nil =>
    intro n i x _ hwf
    simp only [addrune]
    cases x with
    | nil =>
      constructor
      · intro _
        right
        rfl
      · intro _
        exact KeyIn_nil_iff.mpr
          ⟨(0, .mk 0 true 0 []), mem_of_chLookup (chLookup_chInsert_same _ _ _), rfl⟩
    | cons q k =>
      rw [KeyIn_cons_iff]
      constructor
      · rintro ⟨rc, hm, hq, ht, hk⟩
        left
        rcases mem_chInsert_elim hm with h | h | h
        · subst h
          simp at ht
        · exact KeyIn_cons_iff'.mpr ⟨rc, h.1, hq, ht, hk⟩
        · exact KeyIn_cons_iff'.mpr ⟨rc, h, hq, ht, hk⟩
      · rintro (h | h)
        · obtain ⟨rc, hm, hq, ht, hk⟩ := KeyIn_cons_iff'.mp h
          have h0 : rc.1 ≠ 0 := by
            intro he
            have hent := wfEntry_of_mem hwf hm
            rw [WfEntry, if_pos he] at hent
            simp [hent.2.1] at ht
          exact ⟨rc, mem_chInsert_of_mem_ne hm h0, hq, ht, hk⟩
        · simp at h
  | cons r rest ih =>
    intro n i x hlow hwf
    obtain ⟨⟨hr1, hr2⟩, hrest⟩ := Lowercase_cons.mp hlow
    have hr0 : ¬(r = 0) := by omega
    have hd := nodup_of_wf hwf
    simp only [addrune]
    cases hc : chLookup n.children r with
    | some c =>
      have hent := wfEntry_of_mem hwf (mem_of_chLookup hc)
      rw [WfEntry, if_neg hr0] at hent
      obtain ⟨_, _, hval, hterm, hwfc⟩ := hent
      simp only at hval hterm hwfc
      have hwfc' :
          wfNode (Node.mk c.val c.term (c.mask ||| maskruneslice (r :: rest)) c.children)
            = true := by
        rw [@wfNode_eq_of_children _ c (by simp)]
        exact hwfc
      have hIH := fun y =>
        ih (Node.mk c.val c.term (c.mask ||| maskruneslice (r :: rest)) c.children)
          (i + 1) y hrest hwfc'
      have hIHc : ∀ y,
          KeyIn (Node.mk c.val c.term (c.mask ||| maskruneslice (r :: rest)) c.children) y
            ↔ KeyIn c y :=
        fun y => KeyIn_congr' (by simp) y
      have hRterm :
          (addrune (Node.mk c.val c.term (c.mask ||| maskruneslice (r :: rest)) c.children)
            rest (i + 1)).1.term = false := by
        rw [(addrune_fields _ _ _).2.1]
        simpa using hterm
      cases x with
      | nil =>
        rw [KeyIn_nil_iff]
        constructor
        · rintro ⟨rc, hm, ht⟩
          left
          rcases (mem_chInsert_iff_nodup hd).mp hm with h | ⟨h, hne⟩
          · subst h
            exact absurd ht (by simp [hRterm])
          · exact KeyIn_nil_iff'.mpr ⟨rc, h, ht⟩
        · rintro (h | h)
          · obtain ⟨rc, hm, ht⟩ := KeyIn_nil_iff'.mp h
            have hne : rc.1 ≠ r := by
              intro he
              have heq := entry_unique hd hm (mem_of_chLookup hc) (by rw [he])
              rw [heq] at ht
              simp only [Prod.snd] at ht
              simp [hterm] at ht
            exact ⟨rc, mem_chInsert_of_mem_ne hm hne, ht⟩
          · simp at h
      | cons q k =>
        rw [KeyIn_cons_iff]
        by_cases hq : q = r
        · subst hq
          constructor
          · rintro ⟨rc, hm, hqe, ht, hk⟩
            rcases (mem_chInsert_iff_nodup hd).mp hm with h | ⟨h, hne⟩
            · subst h
              rcases (hIH k).mp (by simpa using hk) with h' | h'
              · left
                exact KeyIn_cons_iff'.mpr
                  ⟨(q, c), mem_of_chLookup hc, rfl, by simpa using hterm, (hIHc k).mp h'⟩
              · right
                rw [h']
            · exact absurd hqe hne
          · rintro (h | h)
            · obtain ⟨rc, hm, hqe, ht, hk⟩ := KeyIn_cons_iff'.mp h
              have heq : rc = (q, c) := entry_unique hd hm (mem_of_chLookup hc) (by rw [hqe])
              refine ⟨_, mem_of_chLookup (chLookup_chInsert_same _ _ _), rfl,
                by simpa using hRterm, ?_⟩
              refine (hIH k).mpr (Or.inl ((hIHc k).mpr ?_))
              rw [heq] at hk
              exact hk
            · have hkr : k = rest := by
                injection h
              refine ⟨_, mem_of_chLookup (chLookup_chInsert_same _ _ _), rfl,
                by simpa using hRterm, ?_⟩
              exact (hIH k).mpr (Or.inr hkr)
        · constructor
          · rintro ⟨rc, hm, hqe, ht, hk⟩
            rcases (mem_chInsert_iff_nodup hd).mp hm with h | ⟨h, hne⟩
            · subst h
              have hrq : r = q := by simpa using hqe
              exact absurd hrq.symm hq
            · left
              exact KeyIn_cons_iff'.mpr ⟨rc, h, hqe, ht, hk⟩
          · rintro (h | h)
            · obtain ⟨rc, hm, hqe, ht, hk⟩ := KeyIn_cons_iff'.mp h
              have hne : rc.1 ≠ r := by
                rw [hqe]
                exact hq
              exact ⟨rc, mem_chInsert_of_mem_ne hm hne, hqe, ht, hk⟩
            · have : q = r := by injection h
              exact absurd this hq
    | none =>
      simp only [Node.val_mk, Node.term_mk, Node.mask_mk, Node.children_mk]
      have hwfc' :
          wfNode (Node.mk r false (maskruneslice (r :: rest) ||| maskruneslice (r :: rest))
            ([] : List (Nat × Node))) = true := by
        simp [wfNode, wfList]
      have hIH := fun y =>
        ih (Node.mk r false (maskruneslice (r :: rest) ||| maskruneslice (r :: rest)) [])
          (i + 1) y hrest hwfc'
      have hEmpty : ∀ y,
          ¬ KeyIn (Node.mk r false (maskruneslice (r :: rest) ||| maskruneslice (r :: rest))
            ([] : List (Nat × Node))) y :=
        fun y => not_KeyIn_of_no_children (by simp) y
      have hR : ∀ y,
          KeyIn (addrune
            (Node.mk r false (maskruneslice (r :: rest) ||| maskruneslice (r :: rest)) [])
            rest (i + 1)).1 y ↔ y = rest := by
        intro y
        rw [hIH y]
        constructor
        · rintro (h | h)
          · exact absurd h (hEmpty y)
          · exact h
        · intro h
          exact Or.inr h
      have hRterm :
          (addrune
            (Node.mk r false (maskruneslice (r :: rest) ||| maskruneslice (r :: rest)) [])
            rest (i + 1)).1.term = false := by
        rw [(addrune_fields _ _ _).2.1]
        rfl
      cases x with
      | nil =>
        rw [KeyIn_nil_iff]
        constructor
        · rintro ⟨rc, hm, ht⟩
          left
          rcases (mem_chInsert_iff_nodup hd).mp hm with h | ⟨h, hne⟩
          · subst h
            have ht' : (addrune
                (Node.mk r false (maskruneslice (r :: rest) ||| maskruneslice (r :: rest)) [])
                rest (i + 1)).1.term = true := ht
            rw [hRterm] at ht'
            exact absurd ht' (by decide)
          · exact KeyIn_nil_iff'.mpr ⟨rc, h, ht⟩
        · rintro (h | h)
          · obtain ⟨rc, hm, ht⟩ := KeyIn_nil_iff'.mp h
            have hne : rc.1 ≠ r := by
              intro he
              have hent := wfEntry_of_mem hwf hm
              rw [WfEntry, he, if_neg hr0] at hent
              simp [hent.2.2.2.1] at ht
            exact ⟨rc, mem_chInsert_of_mem_ne hm hne, ht⟩
          · simp at h
      | cons q k =>
        rw [KeyIn_cons_iff]
        by_cases hq : q = r
        · subst hq
          constructor
          · rintro ⟨rc, hm, hqe, ht, hk⟩
            rcases (mem_chInsert_iff_nodup hd).mp hm with h | ⟨h, hne⟩
            · subst h
              right
              rw [(hR k).mp (by simpa using hk)]
            · exact absurd hqe hne
          · rintro (h | h)
            · obtain ⟨rc, hm, hqe, ht, hk⟩ := KeyIn_cons_iff'.mp h
              have := chLookup_of_mem_nodup hd hm
              rw [hqe, hc] at this
              cases this
            · have hkr : k = rest := by injection h
              exact ⟨_, mem_of_chLookup (chLookup_chInsert_same _ _ _), rfl,
                by simpa using hRterm, (hR k).mpr hkr⟩
        · constructor
          · rintro ⟨rc, hm, hqe, ht, hk⟩
            rcases (mem_chInsert_iff_nodup hd).mp hm with h | ⟨h, hne⟩
            · subst h
              have hrq : r = q := by simpa using hqe
              exact absurd hrq.symm hq
            · left
              exact KeyIn_cons_iff'.mpr ⟨rc, h, hqe, ht, hk⟩
          · rintro (h | h)
            · obtain ⟨rc, hm, hqe, ht, hk⟩ := KeyIn_cons_iff'.mp h
              have hne : rc.1 ≠ r := by
                rw [hqe]
                exact hq
              exact ⟨rc, mem_chInsert_of_mem_ne hm hne, hqe, ht, hk⟩
            · have : q = r := by injection h
              exact absurd this hq

theorem MSub_zero (b : Nat) : MSub 0 b := by
  intro i h
  simp at h

theorem or_merge (A B C : Nat) : (A ||| B) ||| (A ||| C) = A ||| (B ||| C) := by
  apply Nat.eq_of_testBit_eq
  intro i
  simp only [Nat.testBit_or]
  cases hA : A.testBit i <;> cases hB : B.testBit i <;> cases hC : C.testBit i <;> simp

theorem or_insert_absorb {D A E C : Nat} (h : MSub (A ||| E) D) :
    D ||| (A ||| (E ||| (A ||| C))) = D ||| (A ||| C) := by
  have hD : (A ||| E) ||| D = D := or_eq_right_of_MSub h
  apply Nat.eq_of_testBit_eq
  intro i
  have hd := congrArg (fun x => Nat.testBit x i) hD
  simp only [Nat.testBit_or] at hd ⊢
  cases hA : A.testBit i <;> cases hE : E.testBit i <;> cases hC : C.testBit i <;>
    cases hDi : D.testBit i <;> simp_all

theorem maskInv_of_mem {n : Node} {rc : Nat × Node} (hinv : maskInvList n.children = true)
    (hm : rc ∈ n.children) : maskInvNode rc.2 = true :=
  maskInvList_iff.mp hinv rc hm

theorem maskInv_addrune : ∀ (rs : List Nat) (n : Node) (i : Nat),
    Lowercase rs = true → wfNode n = true → maskInvList n.children = true →
    (maskInvList (addrune n rs i).1.children = true ∧
      orChildren (addrune n rs i).1.children = orChildren n.children ||| maskruneslice rs) := by
  intro rs
  induction rs with
  | nil =>
    intro n i _ hwf hinv
    simp only [addrune, Node.children_mk]
    constructor
    · rw [maskInvList_iff]
      intro rc hm
      rcases mem_chInsert_elim hm with h | h | h
      · subst h
        decide
      · exact maskInv_of_mem hinv h.1
      · exact maskInv_of_mem hinv h
    · rw [maskruneslice_nil]
      cases h0 : chLookup n.children 0 with
      | none =>
        rw [orChildren_chInsert_none h0]
        simp [maskrune]
      | some c0 =>
        have hent := wfEntry_of_mem hwf (mem_of_chLookup h0)
        rw [WfEntry, if_pos rfl] at hent
        obtain ⟨hval0, _, hch0⟩ := hent
        simp only at hval0 hch0
        have hm0 : c0.mask = 0 := by
          have := maskInv_of_mem hinv (mem_of_chLookup h0)
          rw [maskInvNode_iff] at this
          rw [this.1]
          rw [hval0, hch0]
          simp [maskrune, orChildren]
        rw [orChildren_chInsert_some h0 (by rw [hm0]; exact MSub_zero _)]
        simp [maskrune]
  | cons r rest ih =>
    intro n i hlow hwf hinv
    obtain ⟨⟨hr1, hr2⟩, hrest⟩ := Lowercase_cons.mp hlow
    have hr0 : ¬(r = 0) := by omega
    have hd := nodup_of_wf hwf
    simp only [addrune]
    cases hc : chLookup n.children r with
    | some c =>
      have hent := wfEntry_of_mem hwf (mem_of_chLookup hc)
      rw [WfEntry, if_neg hr0] at hent
      obtain ⟨_, _, hval, hterm, hwfc⟩ := hent
      simp only at hval hterm hwfc
      have hinvc := maskInv_of_mem hinv (mem_of_chLookup hc)
      rw [maskInvNode_iff] at hinvc
      obtain ⟨hmaskc, hinvlc⟩ := hinvc
      simp only at hmaskc hinvlc
      have hwfc' :
          wfNode (Node.mk c.val c.term (c.mask ||| maskruneslice (r :: rest)) c.children)
            = true := by
        rw [@wfNode_eq_of_children _ c (by simp)]
        exact hwfc
      have hIH := ih (Node.mk c.val c.term (c.mask ||| maskruneslice (r :: rest)) c.children)
        (i + 1) hrest hwfc' (by simpa using hinvlc)
      obtain ⟨hinvR, horcR⟩ := hIH
      have hfields := addrune_fields rest
        (Node.mk c.val c.term (c.mask ||| maskruneslice (r :: rest)) c.children) (i + 1)
      simp only [Node.val_mk, Node.term_mk, Node.mask_mk, Node.children_mk] at hfields horcR
      constructor
      · simp only [Node.children_mk]
        rw [maskInvList_iff]
        intro rc hm
        rcases mem_chInsert_elim hm with h | h | h
        · subst h
          rw [maskInvNode_iff]
          constructor
          · show (addrune _ rest (i + 1)).1.mask = _
            rw [hfields.2.2, hfields.1, horcR, hmaskc, hval, maskruneslice_cons]
            exact or_merge _ _ _
          · exact hinvR
        · exact maskInv_of_mem hinv h.1
        · exact maskInv_of_mem hinv h
      · simp only [Node.children_mk]
        have hsub : MSub c.mask
            (addrune (Node.mk c.val c.term (c.mask ||| maskruneslice (r :: rest)) c.children)
              rest (i + 1)).1.mask := by
          rw [hfields.2.2]
          exact MSub.left _ _
        rw [orChildren_chInsert_some hc hsub, hfields.2.2]
        have habsorb : MSub (maskrune r ||| c.mask) (orChildren n.children) := by
          have := MSub_orChildren_of_mem (mem_of_chLookup hc)
          simpa using this
        rw [maskruneslice_cons]
        exact or_insert_absorb habsorb
    | none =>
      simp only [Node.val_mk, Node.term_mk, Node.mask_mk, Node.children_mk]
      have hwfc' :
          wfNode (Node.mk r false (maskruneslice (r :: rest) ||| maskruneslice (r :: rest))
            ([] : List (Nat × Node))) = true := by
        simp [wfNode, wfList]
      have hIH := ih
        (Node.mk r false (maskruneslice (r :: rest) ||| maskruneslice (r :: rest)) [])
        (i + 1) hrest hwfc' (by rfl)
      obtain ⟨hinvR, horcR⟩ := hIH
      have hfields := addrune_fields rest
        (Node.mk r false (maskruneslice (r :: rest) ||| maskruneslice (r :: rest)) [])
        (i + 1)
      simp only [Node.val_mk, Node.term_mk, Node.mask_mk, Node.children_mk] at hfields horcR
      rw [orChildren_nil] at horcR
      constructor
      · rw [maskInvList_iff]
        intro rc hm
        rcases mem_chInsert_elim hm with h | h | h
        · subst h
          rw [maskInvNode_iff]
          constructor
          · show (addrune _ rest (i + 1)).1.mask = _
            rw [hfields.2.2, hfields.1, horcR, Nat.or_self, Nat.zero_or,
              maskruneslice_cons]
          · exact hinvR
        · exact maskInv_of_mem hinv h.1
        · exact maskInv_of_mem hinv h
      · rw [orChildren_chInsert_none hc, hfields.2.2, Nat.or_self]
        have hin : maskrune r ||| maskruneslice (r :: rest) = maskruneslice (r :: rest) := by
          rw [maskruneslice_cons, ← Nat.or_assoc, Nat.or_self]
        rw [hin]

theorem chDelete_nodup {cs : List (Nat × Node)} {r : Nat}
    (hd : (cs.map Prod.fst).Nodup) : ((chDelete cs r).map Prod.fst).Nodup := by
  have hsub : List.Sublist ((chDelete cs r).map Prod.fst) (cs.map Prod.fst) :=
    (List.filter_sublist cs).map Prod.fst
  exact hd.sublist hsub

theorem removeWalk_empty_children {c : Node} (h : c.children = []) (rs : List Nat) :
    removeWalk c rs = (c, false) := by
  cases rs with
  | nil => rfl
  | cons q rest =>
    simp only [removeWalk, h]
    rfl

theorem removeWalk_inv : ∀ (rs : List Nat) (n : Node),
    wfNode n = true → maskInvList n.children = true →
    (wfNode (removeWalk n rs).1 = true ∧
      maskInvList (removeWalk n rs).1.children = true ∧
      (removeWalk n rs).1.val = n.val ∧ (removeWalk n rs).1.term = n.term ∧
      ((removeWalk n rs).2 = true →
        (removeWalk n rs).1.mask =
          maskrune (removeWalk n rs).1.val ||| orChildren (removeWalk n rs).1.children) ∧
      ((removeWalk n rs).2 = false → (removeWalk n rs).1 = n)) := by
  intro rs
  induction rs with
  | nil =>
    intro n hwf hinv
    refine ⟨hwf, hinv, rfl, rfl, ?_, fun _ => rfl⟩
    intro h
    simp [removeWalk] at h
  | cons r rest ih =>
    intro n hwf hinv
    have hd := nodup_of_wf hwf
    cases hc : chLookup n.children r with
    | none =>
      have heq : removeWalk n (r :: rest) = (n, false) := by
        simp only [removeWalk, hc]
      rw [heq]
      exact ⟨hwf, hinv, rfl, rfl, fun h => by simp at h, fun _ => rfl⟩
    | some c =>
      have hmem := mem_of_chLookup hc
      have hent := wfEntry_of_mem hwf hmem
      have hwfc : wfNode c = true := by
        rw [WfEntry] at hent
        by_cases hr0 : r = 0
        · rw [if_pos hr0] at hent
          rw [wfNode_iff]
          simp only at hent
          simp [hent.2.2]
        · rw [if_neg hr0] at hent
          exact hent.2.2.2.2
      have hinvlc : maskInvList c.children = true := by
        have := maskInv_of_mem hinv hmem
        rw [maskInvNode_iff] at this
        exact this.2
      have hres := ih c hwfc hinvlc
      obtain ⟨hwfR, hinvR, hvalR, htermR, hmaskR, hidR⟩ := hres
      cases hres2 : (removeWalk c rest).2 with
      | true =>
        have hr0 : ¬(r = 0) := by
          intro he
          rw [WfEntry, if_pos he] at hent
          simp only at hent
          rw [removeWalk_empty_children hent.2.2 rest] at hres2
          simp at hres2
        rw [WfEntry, if_neg hr0] at hent
        simp only at hent
        obtain ⟨hrlo, hrhi, hval, hterm, _⟩ := hent
        have heq : removeWalk n (r :: rest) =
            (recalc (Node.mk n.val n.term n.mask
              (chInsert n.children r (removeWalk c rest).1)), true) := by
          simp only [removeWalk, hc]
          rw [hres2]
          simp
        rw [heq]
        refine ⟨?_, ?_, by simp, by simp, ?_, ?_⟩
        · rw [wfNode_iff]
          simp only [recalc_children, Node.children_mk]
          refine ⟨chInsert_nodup hd, ?_⟩
          intro rc hm
          rcases mem_chInsert_elim hm with h | h | h
          · subst h
            rw [WfEntry, if_neg hr0]
            refine ⟨hrlo, hrhi, ?_, ?_, hwfR⟩
            · show (removeWalk c rest).1.val = r
              rw [hvalR, hval]
            · show (removeWalk c rest).1.term = false
              rw [htermR, hterm]
          · exact wfEntry_of_mem hwf h.1
          · exact wfEntry_of_mem hwf h
        · simp only [recalc_children, Node.children_mk]
          rw [maskInvList_iff]
          intro rc hm
          rcases mem_chInsert_elim hm with h | h | h
          · subst h
            rw [maskInvNode_iff]
            exact ⟨hmaskR hres2, hinvR⟩
          · exact maskInv_of_mem hinv h.1
          · exact maskInv_of_mem hinv h
        · intro _
          rw [recalc_mask]
          simp
        · intro h
          simp at h
      | false =>
        by_cases hlen : 1 < n.children.length
        · have heq : removeWalk n (r :: rest) =
              (recalc (Node.mk n.val n.term n.mask (chDelete n.children r)), true) := by
            simp only [removeWalk, hc]
            rw [hres2]
            simp [hlen]
          rw [heq]
          refine ⟨?_, ?_, by simp, by simp, ?_, ?_⟩
          · rw [wfNode_iff]
            simp only [recalc_children, Node.children_mk]
            refine ⟨chDelete_nodup hd, ?_⟩
            intro rc hm
            exact wfEntry_of_mem hwf (mem_of_mem_chDelete hm).1
          · simp only [recalc_children, Node.children_mk]
            rw [maskInvList_iff]
            intro rc hm
            exact maskInv_of_mem hinv (mem_of_mem_chDelete hm).1
          · intro _
            rw [recalc_mask]
            simp
          · intro h
            simp at h
        · have heq : removeWalk n (r :: rest) = (n, false) := by
            simp only [removeWalk, hc]
            rw [hres2]
            simp [hlen]
          rw [heq]
          exact ⟨hwf, hinv, rfl, rfl, fun h => by simp at h, fun _ => rfl⟩

/-! ### Invariants of reachable tries -/

theorem Reachable_inv {t : Trie} (h : Reachable t) :
    wfNode t.root = true ∧ maskInvList t.root.children = true := by
  induction h with
  | init => exact ⟨by decide, by decide⟩
  | add ht hk ih =>
    rename_i t1 k1
    exact ⟨wfNode_addrune k1 t1.root 0 hk ih.1,
      (maskInv_addrune k1 t1.root 0 hk ih.1 ih.2).1⟩
  | remove ht hk hr ih =>
    rename_i t1 t1' k1
    unfold Remove at hr
    cases hf : findNode t1.root k1 with
    | none => rw [hf] at hr; cases hr
    | some m =>
      rw [hf] at hr
      have ht' : t1' = ⟨(removeWalk t1.root k1).1, t1.size - 1⟩ := by
        injection hr with h'
        exact h'.symm
      rw [ht']
      have := removeWalk_inv k1 t1.root ih.1 ih.2
      exact ⟨this.1, this.2.1⟩

/-- Letters of any key stored below a node are contained in the node's mask
(given well-formedness and the mask invariant at that node). -/
theorem MSub_maskruneslice_of_KeyIn : ∀ (k : List Nat) (c : Node),
    wfNode c = true → maskInvNode c = true → KeyIn c k →
    MSub (maskruneslice k) c.mask := by
  intro k
  induction k with
  | nil =>
    intro c _ _ _
    rw [maskruneslice_nil]
    exact MSub_zero _
  | cons q k' ih =>
    intro c hwf hinv hk
    obtain ⟨rc, hm, hq, ht, hkd⟩ := KeyIn_cons_iff'.mp hk
    have hq0 : ¬(rc.1 = 0) := by
      intro he
      have hent := wfEntry_of_mem hwf hm
      rw [WfEntry, if_pos he] at hent
      simp [hent.2.1] at ht
    have hent := wfEntry_of_mem hwf hm
    rw [WfEntry, if_neg hq0] at hent
    have hinvd : maskInvNode rc.2 = true := by
      rw [maskInvNode_iff] at hinv
      exact maskInvList_iff.mp hinv.2 rc hm
    have hcontrib : MSub (maskrune rc.1 ||| rc.2.mask) c.mask := by
      rw [maskInvNode_iff] at hinv
      rw [hinv.1]
      exact (MSub_orChildren_of_mem hm).trans (MSub.right _ _)
    rw [maskruneslice_cons]
    apply MSub.union
    · rw [← hq]
      exact (MSub.left _ _).trans hcontrib
    · have := ih rc.2 hent.2.2.2.2 hinvd hkd
      exact this.trans ((MSub.right _ _).trans hcontrib)

/-- Re-inserting a key already stored below a well-formed, mask-correct node
leaves the node literally unchanged. -/
theorem addrune_id : ∀ (rs : List Nat) (n : Node) (i : Nat),
    wfNode n = true → maskInvList n.children = true → KeyIn n rs →
    (addrune n rs i).1 = n := by
  intro rs
  induction rs with
  | nil =>
    intro n i hwf hinv hk
    have hd := nodup_of_wf hwf
    obtain ⟨rc, hm, ht⟩ := KeyIn_nil_iff'.mp hk
    have h0 : rc.1 = 0 := by
      by_contra h0
      have hent := wfEntry_of_mem hwf hm
      rw [WfEntry, if_neg h0] at hent
      simp [hent.2.2.2.1] at ht
    have hent := wfEntry_of_mem hwf hm
    rw [WfEntry, if_pos h0] at hent
    have hmask : rc.2.mask = 0 := by
      have := maskInv_of_mem hinv hm
      rw [maskInvNode_iff] at this
      rw [this.1, hent.1, hent.2.2]
      simp [maskrune, orChildren]
    have hsent : rc.2 = Node.mk 0 true 0 [] := by
      rcases hnd : rc.2 with ⟨v, tt, mm, cc⟩
      rw [hnd] at hent hmask ht
      simp only [Node.val_mk, Node.term_mk, Node.mask_mk, Node.children_mk] at hent hmask ht
      rw [hent.1, ht, hmask, hent.2.2]
    have hm0 : (0, rc.2) ∈ n.children := by
      rw [← h0]
      simpa using hm
    have hlook : chLookup n.children 0 = some rc.2 := chLookup_of_mem_nodup hd hm0
    simp only [addrune]
    rw [← hsent, chInsert_self hlook, Node.eta]
  | cons r rest ih =>
    intro n i hwf hinv hk
    have hd := nodup_of_wf hwf
    obtain ⟨rc, hm, hq, ht, hkd⟩ := KeyIn_cons_iff'.mp hk
    have hq0 : ¬(rc.1 = 0) := by
      intro he
      have hent := wfEntry_of_mem hwf hm
      rw [WfEntry, if_pos he] at hent
      simp [hent.2.1] at ht
    have hent := wfEntry_of_mem hwf hm
    rw [WfEntry, if_neg hq0] at hent
    obtain ⟨_, _, hval, _, hwfd⟩ := hent
    have hinvd : maskInvNode rc.2 = true := maskInv_of_mem hinv hm
    have hmr : (r, rc.2) ∈ n.children := by
      rw [← hq]
      simpa using hm
    have hlook : chLookup n.children r = some rc.2 := chLookup_of_mem_nodup hd hmr
    have hsub : MSub (maskruneslice (r :: rest)) rc.2.mask := by
      rw [maskruneslice_cons]
      apply MSub.union
      · rw [maskInvNode_iff] at hinvd
        rw [hinvd.1, hval, hq]
        exact MSub.left _ _
      · exact MSub_maskruneslice_of_KeyIn rest rc.2 hwfd hinvd hkd
    have hmeq : rc.2.mask ||| maskruneslice (r :: rest) = rc.2.mask :=
      or_eq_left_of_MSub hsub
    have hc'eq : Node.mk rc.2.val rc.2.term (rc.2.mask ||| maskruneslice (r :: rest))
        rc.2.children = rc.2 := by
      rw [hmeq, Node.eta]
    have hinvld : maskInvList rc.2.children = true := by
      rw [maskInvNode_iff] at hinvd
      exact hinvd.2
    simp only [addrune, hlook]
    rw [hc'eq, ih rc.2 (i + 1) hwfd hinvld hkd, chInsert_self hlook, Node.eta]

/-! ### Membership in collect and Keys -/

theorem mem_collectList (cs : List (Nat × Node)) (pre x : List Nat)
    (IH : ∀ rc ∈ cs, ∀ (pre' x' : List Nat),
      x' ∈ collect rc.2 pre' ↔ ∃ k, KeyIn rc.2 k ∧ x' = pre' ++ k) :
    x ∈ collectList cs pre ↔
      ∃ rc ∈ cs, (rc.2.term = true ∧ x = pre) ∨
        (rc.2.term = false ∧ ∃ k, KeyIn rc.2 k ∧ x = pre ++ rc.1 :: k) := by
  induction cs with
  | nil => simp [collectList]
  | cons hd tl ihl =>
    obtain ⟨r, n⟩ := hd
    have IHhd := IH (r, n) (List.mem_cons_self _ _)
    have IHtl : ∀ rc ∈ tl, ∀ (pre' x' : List Nat),
        x' ∈ collect rc.2 pre' ↔ ∃ k, KeyIn rc.2 k ∧ x' = pre' ++ k :=
      fun rc hm => IH rc (List.mem_cons_of_mem _ hm)
    simp only [collectList, List.mem_append]
    rw [ihl IHtl]
    cases hter : n.term with
    | true =>
      have hif : (if true = true then [pre] else collect n (pre ++ [r])) = [pre] :=
        if_pos rfl
      rw [hif, List.mem_singleton]
      constructor
      · rintro (h | ⟨rc, hm, h⟩)
        · exact ⟨(r, n), List.mem_cons_self _ _, Or.inl ⟨hter, h⟩⟩
        · exact ⟨rc, List.mem_cons_of_mem _ hm, h⟩
      · rintro ⟨rc, hm, h⟩
        rcases List.mem_cons.mp hm with hm | hm
        · subst hm
          rcases h with ⟨_, h⟩ | ⟨hf, _⟩
          · exact Or.inl h
          · rw [hter] at hf
            cases hf
        · exact Or.inr ⟨rc, hm, h⟩
    | false =>
      have hif : (if false = true then [pre] else collect n (pre ++ [r]))
          = collect n (pre ++ [r]) :=
        if_neg (by simp)
      rw [hif, IHhd (pre ++ [r]) x]
      constructor
      · rintro (⟨k, hk, hx⟩ | ⟨rc, hm, h⟩)
        · refine ⟨(r, n), List.mem_cons_self _ _, Or.inr ⟨hter, k, hk, ?_⟩⟩
          rw [hx]
          simp
        · exact ⟨rc, List.mem_cons_of_mem _ hm, h⟩
      · rintro ⟨rc, hm, h⟩
        rcases List.mem_cons.mp hm with hm | hm
        · subst hm
          rcases h with ⟨hf, _⟩ | ⟨_, k, hk, hx⟩
          · rw [hter] at hf
            cases hf
          · refine Or.inl ⟨k, hk, ?_⟩
            rw [hx]
            simp
        · exact Or.inr ⟨rc, hm, h⟩

theorem mem_collect : ∀ (n : Node) (pre x : List Nat),
    x ∈ collect n pre ↔ ∃ k, KeyIn n k ∧ x = pre ++ k := by
  have main : ∀ n : Node, ∀ (pre x : List Nat),
      x ∈ collect n pre ↔ ∃ k, KeyIn n k ∧ x = pre ++ k := by
    intro n
    induction n using Node.myrec with
    | h v t m cs IH =>
      intro pre x
      show x ∈ collectList cs pre ↔ _
      rw [mem_collectList cs pre x IH]
      constructor
      · rintro ⟨rc, hm, ⟨hter, hx⟩ | ⟨hter, k, hk, hx⟩⟩
        · exact ⟨[], KeyIn.term hm hter, by simpa using hx⟩
        · refine ⟨rc.1 :: k, KeyIn.step hm hter hk, hx⟩
      · rintro ⟨k, hk, hx⟩
        cases k with
        | nil =>
          obtain ⟨rc, hm, hter⟩ := KeyIn_nil_iff.mp hk
          exact ⟨rc, hm, Or.inl ⟨hter, by simpa using hx⟩⟩
        | cons q k' =>
          obtain ⟨rc, hm, hq, hter, hk'⟩ := KeyIn_cons_iff.mp hk
          refine ⟨rc, hm, Or.inr ⟨hter, k', hk', ?_⟩⟩
          rw [hx, hq]
  exact main

theorem mem_Keys {t : Trie} {x : List Nat} : x ∈ Keys t ↔ KeyIn t.root x := by
  show x ∈ collect t.root [] ↔ _
  rw [mem_collect]
  simp

theorem mem_PrefixSearch {t : Trie} {pre x : List Nat} :
    x ∈ PrefixSearch t pre ↔
      ∃ node, findNode t.root pre = some node ∧ ∃ k, KeyIn node k ∧ x = pre ++ k := by
  unfold PrefixSearch
  cases hf : findNode t.root pre with
  | none => simp
  | some node =>
    rw [mem_collect]
    simp

theorem findNode_cons_some {n c : Node} {r : Nat} {p : List Nat}
    (hc : chLookup n.children r = some c) : findNode n (r :: p) = findNode c p := by
  simp [findNode, hc]

theorem Remove_eq_some {t : Trie} {k : List Nat} (h : (findNode t.root k).isSome = true) :
    Remove t k = some ⟨(removeWalk t.root k).1, t.size - 1⟩ := by
  cases hf : findNode t.root k with
  | none =>
    rw [hf] at h
    simp at h
  | some m => simp [Remove, hf]

theorem removeWalk_no_branch : ∀ (rs : List Nat) (n : Node),
    (∀ j, j < rs.length → pathChildCount n (rs.take j) ≤ 1) →
    removeWalk n rs = (n, false) := by
  intro rs
  induction rs with
  | nil =>
    intro n _
    rfl
  | cons r rest ih =>
    intro n hsingle
    have h0 : n.children.length ≤ 1 := by
      have := hsingle 0 (by simp)
      simpa [pathChildCount, findNode] using this
    cases hc : chLookup n.children r with
    | none => simp only [removeWalk, hc]
    | some c =>
      have hIH : removeWalk c rest = (c, false) := by
        apply ih c
        intro j hj
        have := hsingle (j + 1) (by simpa using Nat.succ_lt_succ hj)
        rw [List.take_succ_cons] at this
        unfold pathChildCount at this ⊢
        rwa [findNode_cons_some hc] at this
      have hlen : ¬ 1 < n.children.length := by omega
      simp only [removeWalk, hc]
      rw [hIH]
      simp [hlen]

theorem KeyIn_foldl_Add : ∀ (ks : List (List Nat)) (t : Trie) (x : List Nat),
    (∀ k ∈ ks, Lowercase k = true) → wfNode t.root = true →
    (KeyIn (ks.foldl (fun t k => (Add t k).1) t).root x ↔ (KeyIn t.root x ∨ x ∈ ks)) := by
  intro ks
  induction ks with
  | nil =>
    intro t x _ _
    simp
  | cons k ks' ih =>
    intro t x hlow hwf
    have hk := hlow k (List.mem_cons_self _ _)
    have hks' : ∀ k' ∈ ks', Lowercase k' = true :=
      fun k' h => hlow k' (List.mem_cons_of_mem _ h)
    have hwf' : wfNode (Add t k).1.root = true := wfNode_addrune k t.root 0 hk hwf
    simp only [List.foldl_cons]
    rw [ih (Add t k).1 x hks' hwf']
    have hstep : KeyIn (Add t k).1.root x ↔ (KeyIn t.root x ∨ x = k) :=
      KeyIn_addrune k t.root 0 x hk hwf
    rw [hstep]
    simp only [List.mem_cons]
    tauto

/-! ### The claims -/

/-- C3: after inserting the keys "cat" and "car" into a fresh trie and then
calling Remove("cat"), Keys() returns exactly the set containing "car"
(concretely, the singleton list of the rune string "car"). -/
theorem claim_C3 :
    (Remove (buildTrie [[99, 97, 116], [99, 97, 114]]) [99, 97, 116]).map Keys
      = some [[99, 97, 114]] := by
  rfl

/-- C4: the code does not fail gracefully on removing an absent key: on a
fresh (empty) trie, `findNode` yields no node and the Go code dereferences the
`nil` parent pointer and panics — modelled by `Remove` returning `none`
(there is no "key not found" result in the code). -/
theorem claim_C4 : Remove CreateTrie [99, 97, 116] = none := by
  rfl

/-- C5: for every finite list of lowercase keys inserted into a fresh trie,
Keys() returns exactly that set of keys (membership coincides; order is
irrelevant). -/
theorem claim_C5 (ks : List (List Nat)) (h : ∀ k ∈ ks, Lowercase k = true)
    (x : List Nat) : x ∈ Keys (buildTrie ks) ↔ x ∈ ks := by
  rw [mem_Keys]
  unfold buildTrie
  rw [KeyIn_foldl_Add ks CreateTrie x h (by decide)]
  have hempty : ¬ KeyIn CreateTrie.root x := not_KeyIn_of_no_children (by rfl) x
  tauto

/-- Witness for C5 at the concrete key set of the claim. -/
theorem claim_C5_witness :
    (∀ k ∈ [[99, 97, 116], [99, 97, 114], [100, 111, 103]], Lowercase k = true) ∧
      ([99, 97, 116] ∈ Keys (buildTrie [[99, 97, 116], [99, 97, 114], [100, 111, 103]]) ↔
        [99, 97, 116] ∈ [[99, 97, 116], [99, 97, 114], [100, 111, 103]]) :=
  ⟨by decide, claim_C5 _ (by decide) _⟩

/-- C6: after inserting cat, car, cart, dog, PrefixSearch "ca" returns exactly
the keys cat, car, cart (stated as a permutation, i.e. set equality), and
PrefixSearch "z" returns the empty sequence. -/
theorem claim_C6 :
    (PrefixSearch (buildTrie [[99, 97, 116], [99, 97, 114], [99, 97, 114, 116],
        [100, 111, 103]]) [99, 97]).Perm
      [[99, 97, 116], [99, 97, 114], [99, 97, 114, 116]] ∧
    PrefixSearch (buildTrie [[99, 97, 116], [99, 97, 114], [99, 97, 114, 116],
        [100, 111, 103]]) [122] = [] := by
  constructor
  · decide
  · rfl

/-- C7: re-inserting a key already present in a reachable trie changes only
the size counter: the entire node tree is literally unchanged (hence Keys()
and every mask are unchanged and the mask invariant keeps whatever status it
had), and size is incremented. -/
theorem claim_C7 (t : Trie) (k : List Nat) (h : Reachable t)
    (hk : keyIn t.root k = true) :
    (Add t k).1.root = t.root ∧ (Add t k).1.size = t.size + 1 ∧
      Keys (Add t k).1 = Keys t ∧ maskInvBelow (Add t k).1.root = true := by
  obtain ⟨hwf, hinv⟩ := Reachable_inv h
  have hroot : (Add t k).1.root = t.root :=
    addrune_id k t.root 0 hwf hinv ((keyIn_iff_KeyIn k t.root).mp hk)
  refine ⟨hroot, rfl, ?_, ?_⟩
  · show collect (Add t k).1.root [] = collect t.root []
    rw [hroot]
  · show maskInvList (Add t k).1.root.children = true
    rw [hroot]
    exact hinv

/-- Witness for C7: re-inserting "a" into the trie containing exactly "a". -/
theorem claim_C7_witness :
    (keyIn (Add CreateTrie [97]).1.root [97] = true) ∧
      ((Add (Add CreateTrie [97]).1 [97]).1.root = (Add CreateTrie [97]).1.root ∧
        (Add (Add CreateTrie [97]).1 [97]).1.size = (Add CreateTrie [97]).1.size + 1 ∧
        Keys (Add (Add CreateTrie [97]).1 [97]).1 = Keys (Add CreateTrie [97]).1 ∧
        maskInvBelow (Add (Add CreateTrie [97]).1 [97]).1.root = true) :=
  ⟨by decide, claim_C7 _ [97] (Reachable.add Reachable.init (by decide)) (by decide)⟩

/-- C8: Add(k) increments the size counter by exactly one and returns the
number of characters of k. -/
theorem claim_C8 (t : Trie) (k : List Nat) :
    (Add t k).2 = k.length ∧ (Add t k).1.size = t.size + 1 := by
  constructor
  · show (addrune t.root k 0).2 = k.length
    rw [addrune_snd k t.root 0]
    omega
  · rfl

/-- C9: whenever the character path of `k` exists in the trie (whether or not
`k` is a stored key, and whether or not any node gets detached), Remove(k)
decrements the size counter by exactly one. -/
theorem claim_C9 (t : Trie) (k : List Nat) (h : (findNode t.root k).isSome = true) :
    (Remove t k).map Trie.size = some (t.size - 1) := by
  rw [Remove_eq_some h]
  rfl

/-- Witness for C9: removing the non-key path "ca" from the trie containing
exactly "cat" decrements size to 0 while Keys() still holds one key, so size
disagrees with the number of stored keys. -/
theorem claim_C9_witness :
    ((findNode (buildTrie [[99, 97, 116]]).root [99, 97]).isSome = true) ∧
      (Remove (buildTrie [[99, 97, 116]]) [99, 97]).map Trie.size = some 0 ∧
      (Remove (buildTrie [[99, 97, 116]]) [99, 97]).map Keys = some [[99, 97, 116]] :=
  ⟨by decide, claim_C9 _ [99, 97] (by decide), by decide⟩

/-- C10: if the path of `k` exists, `k` is stored, and every ancestor strictly
above `k`'s last character node (the nodes at the proper prefixes of `k`) has
at most one child, then Remove(k) detaches nothing: the tree is unchanged and
Keys() still contains `k` (only size changes). -/
theorem claim_C10 (t : Trie) (k : List Nat)
    (hpath : (findNode t.root k).isSome = true)
    (hk : keyIn t.root k = true)
    (hsingle : ∀ j, j < k.length → pathChildCount t.root (k.take j) ≤ 1) :
    ∃ t', Remove t k = some t' ∧ t'.root = t.root ∧ keyIn t'.root k = true := by
  have hwalk : removeWalk t.root k = (t.root, false) :=
    removeWalk_no_branch k t.root hsingle
  refine ⟨⟨(removeWalk t.root k).1, t.size - 1⟩, Remove_eq_some hpath, ?_, ?_⟩
  · show (removeWalk t.root k).1 = t.root
    rw [hwalk]
  · show keyIn (removeWalk t.root k).1 k = true
    rw [hwalk]
    exact hk

/-- Witness for C10: the trie holding "ca" and "cat"; removing the proper
prefix key "ca" detaches nothing and "ca" is still listed. -/
theorem claim_C10_witness :
    ((findNode (buildTrie [[99, 97], [99, 97, 116]]).root [99, 97]).isSome = true) ∧
      (keyIn (buildTrie [[99, 97], [99, 97, 116]]).root [99, 97] = true) ∧
      (∀ j, j < ([99, 97] : List Nat).length →
        pathChildCount (buildTrie [[99, 97], [99, 97, 116]]).root
          (([99, 97] : List Nat).take j) ≤ 1) ∧
      ∃ t', Remove (buildTrie [[99, 97], [99, 97, 116]]) [99, 97] = some t' ∧
        t'.root = (buildTrie [[99, 97], [99, 97, 116]]).root ∧
        keyIn t'.root [99, 97] = true :=
  ⟨by decide, by decide, by decide,
    claim_C10 _ [99, 97] (by decide) (by decide) (by decide)⟩

/-- C2 (amended): for every node strictly below the root of a reachable trie,
the mask equation `mask = bit(val) ||| OR over children (bit(key) ||| mask)`
holds after every insertion of a lowercase key and every removal of a present
key; the root itself is exempt (its mask is never updated by Add). -/
theorem claim_C2_amended (t : Trie) (h : Reachable t) :
    maskInvBelow t.root = true :=
  (Reachable_inv h).2

/-- Counterexample to C2 as stated: after inserting "a" into a fresh trie the
root violates the mask equation (its mask is still 0 while the equation
requires the bit of the letter a). -/
theorem claim_C2_counterexample :
    ¬ ((Add CreateTrie [97]).1.root.mask =
      maskrune (Add CreateTrie [97]).1.root.val |||
        orChildren (Add CreateTrie [97]).1.root.children) := by
  decide

/-- Witness for the amended C2 on a concrete reachable trie. -/
theorem claim_C2_witness :
    maskInvBelow (Add (Add CreateTrie [97, 98]).1 [97]).1.root = true :=
  claim_C2_amended _
    (Reachable.add (Reachable.add Reachable.init (by decide)) (by decide))

/-! ### Fuzzy search: helper lemmas -/

theorem MSub_maskruneslice_of_sublist {a b : List Nat} (h : List.Sublist a b) :
    MSub (maskruneslice a) (maskruneslice b) := by
  induction h with
  | slnil => exact MSub_zero _
  | cons r _ ih =>
    rw [maskruneslice_cons]
    exact ih.trans (MSub.right _ _)
  | cons₂ r _ ih =>
    rw [maskruneslice_cons, maskruneslice_cons]
    exact MSub.union (MSub.left _ _) (ih.trans (MSub.right _ _))

/-- The pruning test of `fuzzycollect`: `(M ^^^ m) &&& m = 0` says exactly
that every bit of `m` is present in `M`. -/
theorem prune_iff {M m : Nat} : ((M ^^^ m) &&& m = 0) ↔ MSub m M := by
  constructor
  · intro h i hi
    have hb := congrArg (fun x => Nat.testBit x i) h
    simp only [Nat.testBit_and, Nat.testBit_xor, Nat.zero_testBit] at hb
    rw [hi] at hb
    cases hM : M.testBit i with
    | true => rfl
    | false =>
      rw [hM] at hb
      simp at hb
  · intro h
    apply Nat.eq_of_testBit_eq
    intro i
    simp only [Nat.testBit_and, Nat.testBit_xor, Nat.zero_testBit]
    cases hm : m.testBit i with
    | false => simp
    | true =>
      rw [h i hm]
      simp

theorem sublist_cons_ne {p v : Nat} {ps k : List Nat} (hne : p ≠ v)
    (h : List.Sublist (p :: ps) (v :: k)) : List.Sublist (p :: ps) k := by
  cases h with
  | cons _ h => exact h
  | cons₂ => exact absurd rfl hne

/-- Letters reachable below a child entry bound its mask: if `k'` is stored
below the entry's node, the bits of the edge rune and of `k'` are inside the
entry's mask (needs the entry to be a real letter node, i.e. key not 0). -/
theorem MSub_edge_key {v' : Nat} {n' : Node} (hne : ¬(v' = 0))
    (hent : WfEntry (v', n')) (hinv : maskInvNode n' = true) {k' : List Nat}
    (hk' : KeyIn n' k') :
    MSub (maskruneslice (v' :: k')) n'.mask := by
  rw [WfEntry, if_neg hne] at hent
  have hval : n'.val = v' := hent.2.2.1
  have hwfn' : wfNode n' = true := hent.2.2.2.2
  rw [maskruneslice_cons]
  apply MSub.union
  · rw [maskInvNode_iff] at hinv
    rw [hinv.1, hval]
    exact MSub.left _ _
  · exact MSub_maskruneslice_of_KeyIn k' n' hwfn' hinv hk'

/-! ### The Go string order -/

theorem lexLe_total : ∀ (a b : List Nat), (lexLe a b || lexLe b a) = true := by
  intro a
  induction a with
  | nil =>
    intro b
    simp [lexLe]
  | cons x xs ih =>
    intro b
    cases b with
    | nil => simp [lexLe]
    | cons y ys =>
      simp only [lexLe]
      by_cases h1 : x < y
      · have h2 : ¬y < x := by omega
        simp [h1, h2]
      · by_cases h2 : y < x
        · simp [h1, h2]
        · simp [h1, h2, ih ys]

theorem lexLe_trans : ∀ (a b c : List Nat),
    lexLe a b = true → lexLe b c = true → lexLe a c = true := by
  intro a
  induction a with
  | nil =>
    intro b c _ _
    simp [lexLe]
  | cons x xs ih =>
    intro b c hab hbc
    cases b with
    | nil => simp [lexLe] at hab
    | cons y ys =>
      cases c with
      | nil => simp [lexLe] at hbc
      | cons z zs =>
        simp only [lexLe] at hab hbc ⊢
        by_cases hxy : x < y
        · by_cases hyz : y < z
          · have hxz : x < z := Nat.lt_trans hxy hyz
            simp [hxz]
          · by_cases hzy : z < y
            · simp [hyz, hzy] at hbc
            · have heq : y = z := by omega
              subst heq
              simp [hxy]
        · by_cases hyx : y < x
          · simp [hxy, hyx] at hab
          · have heq : x = y := by omega
            subst heq
            by_cases hxz : x < z
            · simp [hxz]
            · by_cases hzx : z < x
              · simp [hxz, hzx] at hbc
              · have heq2 : x = z := by omega
                subst heq2
                simp [hxz, hzx] at hab hbc ⊢
                exact ih ys zs hab hbc

theorem mem_fuzzyList (p : Nat) (ps : List Nat) :
    ∀ (cs : List (Nat × Node)) (pm x : List Nat),
    (∀ rc ∈ cs, WfEntry rc) →
    (∀ rc ∈ cs, maskInvNode rc.2 = true) →
    (∀ rc ∈ cs, wfNode rc.2 = true → maskInvList rc.2.children = true →
      ∀ (pm' patt' x' : List Nat),
        x' ∈ fuzzycollect rc.2 pm' patt' ↔
          ∃ k, KeyIn rc.2 k ∧ List.Sublist patt' k ∧ x' = pm' ++ k) →
    (x ∈ fuzzyList cs pm p ps (maskruneslice (p :: ps)) ↔
      ∃ rc ∈ cs, ∃ k', KeyIn rc.2 k' ∧ List.Sublist (p :: ps) (rc.1 :: k') ∧
        x = pm ++ rc.1 :: k') := by
  intro cs
  induction cs with
  | nil =>
    intro pm x _ _ _
    simp [fuzzyList]
  | cons hd tl ihl =>
    obtain ⟨v', n'⟩ := hd
    intro pm x hents hinvs hIHs
    have henth := hents (v', n') (List.mem_cons_self _ _)
    have hinvh := hinvs (v', n') (List.mem_cons_self _ _)
    have hIHh := hIHs (v', n') (List.mem_cons_self _ _)
    have hentt : ∀ rc ∈ tl, WfEntry rc := fun rc h => hents rc (List.mem_cons_of_mem _ h)
    have hinvt : ∀ rc ∈ tl, maskInvNode rc.2 = true :=
      fun rc h => hinvs rc (List.mem_cons_of_mem _ h)
    have hIHt := fun rc h => hIHs rc (List.mem_cons_of_mem _ h)
    have hwfn' : wfNode n' = true := by
      by_cases h0 : v' = 0
      · have hE := henth
        rw [WfEntry, if_pos h0] at hE
        rw [wfNode_iff]
        simp only at hE
        simp [hE.2.2]
      · have hE := henth
        rw [WfEntry, if_neg h0] at hE
        exact hE.2.2.2.2
    have hinvln' : maskInvList n'.children = true := by
      have hE := hinvh
      rw [maskInvNode_iff] at hE
      exact hE.2
    simp only [fuzzyList]
    rw [List.mem_append, ihl pm x hentt hinvt hIHt]
    by_cases hprune : (n'.mask ^^^ maskruneslice (p :: ps)) &&& maskruneslice (p :: ps) ≠ 0
    · rw [if_pos hprune]
      constructor
      · rintro (h | h)
        · exact absurd h (List.not_mem_nil x)
        · obtain ⟨rc, hm, out⟩ := h
          exact ⟨rc, List.mem_cons_of_mem _ hm, out⟩
      · rintro ⟨rc, hm, k', hk', hs, hx⟩
        rcases List.mem_cons.mp hm with hm | hm
        · subst hm
          by_cases h0 : v' = 0
          · have hE := henth
            rw [WfEntry, if_pos h0] at hE
            exact absurd hk' (not_KeyIn_of_no_children hE.2.2 k')
          · have hs' : List.Sublist (p :: ps) (v' :: k') := hs
            have hMS : MSub (maskruneslice (p :: ps)) n'.mask :=
              (MSub_maskruneslice_of_sublist hs').trans
                (MSub_edge_key h0 henth hinvh hk')
            exact absurd (prune_iff.mpr hMS) hprune
        · exact Or.inr ⟨rc, hm, k', hk', hs, hx⟩
    · rw [if_neg hprune,
        hIHh hwfn' hinvln' (pm ++ [v']) (if v' = p then ps else p :: ps) x]
      constructor
      · rintro (⟨k', hk', hs, hx⟩ | ⟨rc, hm, out⟩)
        · refine ⟨(v', n'), List.mem_cons_self _ _, k', hk', ?_, by simpa using hx⟩
          show List.Sublist (p :: ps) (v' :: k')
          by_cases hv : v' = p
          · rw [if_pos hv] at hs
            rw [hv]
            exact List.cons_sublist_cons.mpr hs
          · rw [if_neg hv] at hs
            exact List.Sublist.cons v' hs
        · exact ⟨rc, List.mem_cons_of_mem _ hm, out⟩
      · rintro ⟨rc, hm, k', hk', hs, hx⟩
        rcases List.mem_cons.mp hm with hm | hm
        · subst hm
          left
          refine ⟨k', hk', ?_, by simpa using hx⟩
          have hs' : List.Sublist (p :: ps) (v' :: k') := hs
          by_cases hv : v' = p
          · rw [if_pos hv]
            rw [hv] at hs'
            exact List.cons_sublist_cons.mp hs'
          · rw [if_neg hv]
            exact sublist_cons_ne (fun he => hv he.symm) hs'
        · exact Or.inr ⟨rc, hm, k', hk', hs, hx⟩

theorem mem_fuzzycollect : ∀ (node : Node), wfNode node = true →
    maskInvList node.children = true →
    ∀ (pm patt x : List Nat),
      (x ∈ fuzzycollect node pm patt ↔
        ∃ k, KeyIn node k ∧ List.Sublist patt k ∧ x = pm ++ k) := by
  intro node
  induction node using Node.myrec with
  | h v t m cs IH =>
    intro hwf hinv pm patt x
    cases patt with
    | nil =>
      show x ∈ collect (Node.mk v t m cs) pm ↔ _
      rw [mem_collect]
      constructor
      · rintro ⟨k, hk, hx⟩
        exact ⟨k, hk, List.nil_sublist k, hx⟩
      · rintro ⟨k, hk, _, hx⟩
        exact ⟨k, hk, hx⟩
    | cons p ps =>
      show x ∈ fuzzyList cs pm p ps (maskruneslice (p :: ps)) ↔ _
      rw [mem_fuzzyList p ps cs pm x ((wfNode_iff _).mp hwf).2
        (fun rc h => maskInvList_iff.mp (by simpa using hinv) rc h) IH]
      constructor
      · rintro ⟨rc, hm, k', hk', hs, hx⟩
        have hterm : rc.2.term = false := by
          by_cases h0 : rc.1 = 0
          · have hE := ((wfNode_iff _).mp hwf).2 rc hm
            rw [WfEntry, if_pos h0] at hE
            exact absurd hk' (not_KeyIn_of_no_children hE.2.2 k')
          · have hE := ((wfNode_iff _).mp hwf).2 rc hm
            rw [WfEntry, if_neg h0] at hE
            exact hE.2.2.2.1
        exact ⟨rc.1 :: k', KeyIn.step hm hterm hk', hs, hx⟩
      · rintro ⟨k, hk, hs, hx⟩
        cases k with
        | nil =>
          rw [List.sublist_nil] at hs
          cases hs
        | cons q k' =>
          obtain ⟨rc, hm, hq, _, hk'⟩ := KeyIn_cons_iff.mp hk
          refine ⟨rc, hm, k', hk', ?_, ?_⟩
          · rw [hq]
            exact hs
          · rw [hq]
            exact hx

/-- C1: in every reachable trie, for every stored key k and every pattern p,
k appears in FuzzySearch(p) exactly when p's characters form an ordered (not
necessarily contiguous) subsequence of k's characters, and the returned
sequence is sorted ascending in the lexicographic order on rune strings. -/
theorem claim_C1 (t : Trie) (p k : List Nat) (h : Reachable t)
    (hk : keyIn t.root k = true) :
    (k ∈ FuzzySearch t p ↔ List.Sublist p k) ∧
      (FuzzySearch t p).Pairwise (fun a b => lexLe a b = true) := by
  obtain ⟨hwf, hinv⟩ := Reachable_inv h
  constructor
  · show k ∈ (fuzzycollect t.root [] p).mergeSort lexLe ↔ _
    rw [List.mem_mergeSort, mem_fuzzycollect t.root hwf hinv [] p k]
    constructor
    · rintro ⟨k', hk', hs, he⟩
      simp only [List.nil_append] at he
      rw [he]
      exact hs
    · intro hs
      exact ⟨k, (keyIn_iff_KeyIn k t.root).mp hk, hs, by simp⟩
  · show ((fuzzycollect t.root [] p).mergeSort lexLe).Pairwise _
    exact List.sorted_mergeSort lexLe_trans lexLe_total _

/-- Witness for C1: the trie holding "ab" and "ba", pattern "ab". -/
theorem claim_C1_witness :
    (keyIn (Add (Add CreateTrie [97, 98]).1 [98, 97]).1.root [97, 98] = true) ∧
      (([97, 98] ∈ FuzzySearch (Add (Add CreateTrie [97, 98]).1 [98, 97]).1 [97, 98] ↔
        List.Sublist [97, 98] [97, 98]) ∧
        (FuzzySearch (Add (Add CreateTrie [97, 98]).1 [98, 97]).1 [97, 98]).Pairwise
          (fun a b => lexLe a b = true)) :=
  ⟨by decide, claim_C1 _ [97, 98] [97, 98]
    (Reachable.add (Reachable.add Reachable.init (by decide)) (by decide)) (by decide)⟩

end TrieGo
